import Mathlib

/-!
Verification development for the `clickable_img` repository (`src/lib.rs`,
`src/img_converter.rs`).

Shallow embedding conventions:

* `egui::Rect` carries `f32` corner coordinates.  Every rectangle the program
  itself builds (image bounds at the origin, the geometric splits of the
  spatial index) has integer coordinates, which `f32` represents exactly, so
  those are embedded with `Int` coordinates (`Rect`); Rust's saturating
  float-to-`usize` cast (`as usize`, which clamps negative values to `0`) is
  `Int.toNat` there.  Caller-supplied query rectangles may have fractional
  coordinates: the query functions are additionally embedded over rational
  corners (`QRect`, with the cast as `⌊q⌋.toNat`), which covers every `f32`
  value exactly; `Rect.toQ` injects the integer-cornered rectangles and the
  two embeddings provably agree on them.
* `bit_set::BitSet` is a finite set of bit indices, embedded as `Finset Nat`
  (`BitSet::contains` on an index beyond the stored blocks is `false`).
* Machine integers are `Nat`; widths are made explicit with `% 2 ^ w` or with
  explicit byte lists where the byte layout matters.
* Rust code that can panic (out-of-bounds slice indexing) is embedded as an
  `Option`-valued function where `none` marks the panic.
-/

namespace ClickableImg

/-- Embedding of `egui::Rect` (an axis-aligned rectangle given by its `min`
and `max` corners) on the integer lattice. -/
structure Rect where
  minX : Int
  minY : Int
  maxX : Int
  maxY : Int
  deriving DecidableEq, Repr

namespace Rect

/-- Rust `rect.width() = max.x - min.x`. -/
def width (r : Rect) : Int := r.maxX - r.minX

/-- Rust `rect.height() = max.y - min.y`. -/
def height (r : Rect) : Int := r.maxY - r.minY

/-- Rust `Rect::from_min_size(min, size)`, i.e. `max = min + size`. -/
def fromMinSize (x y w h : Int) : Rect := ⟨x, y, x + w, y + h⟩

/-- Rust `Rect::intersect`: componentwise `max` of the `min` corners and
`min` of the `max` corners (the result may be inverted when the rectangles
are disjoint). -/
def intersect (a b : Rect) : Rect :=
  ⟨max a.minX b.minX, max a.minY b.minY, min a.maxX b.maxX, min a.maxY b.maxY⟩

/-- Rust `Rect::intersects`: closed-interval overlap test on both axes. -/
def intersects (a b : Rect) : Prop :=
  a.minX ≤ b.maxX ∧ b.minX ≤ a.maxX ∧ a.minY ≤ b.maxY ∧ b.minY ≤ a.maxY

instance (a b : Rect) : Decidable (a.intersects b) := by
  unfold intersects; infer_instance

/-- Rust `Rect::contains(pos)`: closed membership of a point. -/
def containsPos (a : Rect) (x y : Int) : Prop :=
  a.minX ≤ x ∧ x ≤ a.maxX ∧ a.minY ≤ y ∧ y ≤ a.maxY

instance (a : Rect) (x y : Int) : Decidable (a.containsPos x y) := by
  unfold containsPos; infer_instance

/-- Rust `Rect::contains_rect(other) = contains(other.min) && contains(other.max)`. -/
def containsRect (a b : Rect) : Prop :=
  a.containsPos b.minX b.minY ∧ a.containsPos b.maxX b.maxY

instance (a b : Rect) : Decidable (a.containsRect b) := by
  unfold containsRect; infer_instance

theorem intersect_idem_right (a b : Rect) :
    (a.intersect b).intersect b = a.intersect b := by
  simp [intersect, max_assoc, min_assoc]

end Rect

/-- Embedding of `Pixels2D`: a bit set of opaque-pixel indices together with
the mask's bounding rectangle. -/
structure Pixels2D where
  bits : Finset Nat
  rect : Rect
  deriving DecidableEq

namespace Pixels2D

/-- Rust `Pixels2D::pixel_at(x, y) = bits.contains(x + y * (rect.width() as usize))`.
Total: an index beyond the stored set simply is not a member. -/
def pixel_at (px : Pixels2D) (x y : Nat) : Bool :=
  decide ((x + y * px.rect.width.toNat) ∈ px.bits)

/-- Rust `Pixels2D::pixel_count(rect)`: scans
`y ∈ [rect.min.y as usize, .. + rect.height() as usize)` and
`x ∈ [rect.min.x as usize, .. + rect.width() as usize)` counting hits.
No clipping against the mask bounds is performed. -/
def pixel_count (px : Pixels2D) (rect : Rect) : Nat :=
  ((List.range rect.height.toNat).map (fun dy =>
    (List.range rect.width.toNat).countP (fun dx =>
      px.pixel_at (rect.minX.toNat + dx) (rect.minY.toNat + dy)))).sum

/-- Rust `Pixels2D::contains_pixel(rect)`: intersects the argument with the
mask bounds and scans the intersection, returning at the first hit.  The
source's `covered_both == Rect::NOTHING` early return compares against a
rectangle with infinite corners, which the intersection of two rectangles
with finite coordinates never equals, so it is dead code in this embedding;
an empty intersection already yields `false` through the saturating casts
(the loop bounds become `0`). -/
def contains_pixel (px : Pixels2D) (rect : Rect) : Bool :=
  let cb := rect.intersect px.rect
  (List.range cb.height.toNat).any (fun dy =>
    (List.range cb.width.toNat).any (fun dx =>
      px.pixel_at (cb.minX.toNat + dx) (cb.minY.toNat + dy)))

end Pixels2D

/-- Embedding of the recursive spatial index `LayeredRect`. -/
inductive LayeredRect where
  | Leaf (rect : Rect) (pixel_count : Nat)
  | Node (rect : Rect) (child0 child1 : LayeredRect) (pixel_count : Nat)
  deriving DecidableEq, Repr

/-- Rust `split_horizontal`: split at `(rect.width() as usize) / 2` into a
left half of that width and a right half of the remaining width, both at
full height. -/
def split_horizontal (rect : Rect) : Rect × Rect :=
  let split_at : Nat := rect.width.toNat / 2
  (Rect.fromMinSize rect.minX rect.minY split_at rect.height,
   Rect.fromMinSize (rect.minX + split_at) rect.minY (rect.width - split_at) rect.height)

/-- Rust `split_vertical`: split at `(rect.height() as usize) / 2` into a top
half of that height and a bottom half of the remaining height, both at full
width. -/
def split_vertical (rect : Rect) : Rect × Rect :=
  let split_at : Nat := rect.height.toNat / 2
  (Rect.fromMinSize rect.minX rect.minY rect.width split_at,
   Rect.fromMinSize rect.minX (rect.minY + split_at) rect.width (rect.height - split_at))

/-- Rust constant `MIN_NODE_SIZE: f32 = 3.`. -/
def MIN_NODE_SIZE : Int := 3

namespace LayeredRect

/-- Rust `LayeredRect::pixel_count`: the count stored at the root node. -/
def pixel_count : LayeredRect → Nat
  | .Leaf _ c => c
  | .Node _ _ _ c => c

/-- Rust `LayeredRect::new(rect, bit_img)`: split horizontally while the
width exceeds `MIN_NODE_SIZE`, then vertically while the height does, and
finally store the brute-force count of the leaf rectangle. -/
def new (rect : Rect) (bit_img : Pixels2D) : LayeredRect :=
  if MIN_NODE_SIZE < rect.width then
    .Node rect
      (new (split_horizontal rect).1 bit_img)
      (new (split_horizontal rect).2 bit_img)
      ((new (split_horizontal rect).1 bit_img).pixel_count +
        (new (split_horizontal rect).2 bit_img).pixel_count)
  else if MIN_NODE_SIZE < rect.height then
    .Node rect
      (new (split_vertical rect).1 bit_img)
      (new (split_vertical rect).2 bit_img)
      ((new (split_vertical rect).1 bit_img).pixel_count +
        (new (split_vertical rect).2 bit_img).pixel_count)
  else
    .Leaf rect (bit_img.pixel_count rect)
termination_by rect.width.toNat + rect.height.toNat
decreasing_by
  all_goals
    simp only [split_horizontal, split_vertical, Rect.fromMinSize, Rect.width, Rect.height,
      MIN_NODE_SIZE] at *
  all_goals omega

end LayeredRect

/-- Embedding of `BitImg`: the mask together with the spatial index built
over the mask's own rectangle. -/
structure BitImg where
  pixels : Pixels2D
  layered_rect : LayeredRect

namespace BitImg

/-- Rust `BitImg::new(pixels)`. -/
def new (pixels : Pixels2D) : BitImg :=
  ⟨pixels, LayeredRect.new pixels.rect pixels⟩

/-- Rust `BitImg::is_opaque_at`: delegates to the mask. -/
def is_opaque_at (b : BitImg) (x y : Nat) : Bool :=
  b.pixels.pixel_at x y

/-- Rust `BitImg::contains_pixel_in_layer(target_rect, layered)`: prune on a
zero count or a missed rectangle, answer `true` when the query rectangle
contains a nonempty node, recurse into children at a `Node` and fall back to
the brute-force mask scan at a `Leaf`. -/
def contains_pixel_in_layer (b : BitImg) (target : Rect) : LayeredRect → Bool
  | .Leaf rect pc =>
      if pc = 0 then false
      else if ¬ rect.intersects target then false
      else if target.containsRect rect ∧ pc ≠ 0 then true
      else b.pixels.contains_pixel target
  | .Node rect c0 c1 pc =>
      if pc = 0 then false
      else if ¬ rect.intersects target then false
      else if target.containsRect rect ∧ pc ≠ 0 then true
      else b.contains_pixel_in_layer target c0 || b.contains_pixel_in_layer target c1

/-- Rust `BitImg::contains_pixel(rect)`: clip the query to the mask bounds
and descend the index.  As in `Pixels2D.contains_pixel` the
`== Rect::NOTHING` early return is dead code for finite rectangles. -/
def contains_pixel (b : BitImg) (rect : Rect) : Bool :=
  b.contains_pixel_in_layer (rect.intersect b.pixels.rect) b.layered_rect

end BitImg

/-! ## The query path at full `f32` generality

The rectangles the program itself constructs (mask bounds, tree nodes) have
integer-valued `f32` coordinates, represented exactly by `Rect` above.  The
query rectangle of `BitImg::contains_pixel` and `Pixels2D::contains_pixel`,
however, is caller-supplied and may have fractional coordinates.  `QRect`
re-embeds the same source functions with the query rectangle kept at full
`f32` generality: corners are rationals (every finite `f32` value is a
rational; claims are settled at values where `f32` arithmetic is exact),
and `Rect.toQ` injects the integer-cornered rectangles. -/

/-- Embedding of `egui::Rect` for caller-supplied query rectangles, with
rational (`f32`-general) corners. -/
structure QRect where
  minX : ℚ
  minY : ℚ
  maxX : ℚ
  maxY : ℚ
  deriving DecidableEq

namespace QRect

/-- Rust `rect.width() = max.x - min.x`. -/
def width (r : QRect) : ℚ := r.maxX - r.minX

/-- Rust `rect.height() = max.y - min.y`. -/
def height (r : QRect) : ℚ := r.maxY - r.minY

/-- Rust `Rect::intersect` on rational rectangles. -/
def intersect (a b : QRect) : QRect :=
  ⟨max a.minX b.minX, max a.minY b.minY, min a.maxX b.maxX, min a.maxY b.maxY⟩

/-- Rust `Rect::intersects` on rational rectangles. -/
def intersects (a b : QRect) : Prop :=
  a.minX ≤ b.maxX ∧ b.minX ≤ a.maxX ∧ a.minY ≤ b.maxY ∧ b.minY ≤ a.maxY

instance (a b : QRect) : Decidable (a.intersects b) := by
  unfold intersects; infer_instance

/-- Rust `Rect::contains(pos)` on rational rectangles. -/
def containsPos (a : QRect) (x y : ℚ) : Prop :=
  a.minX ≤ x ∧ x ≤ a.maxX ∧ a.minY ≤ y ∧ y ≤ a.maxY

instance (a : QRect) (x y : ℚ) : Decidable (a.containsPos x y) := by
  unfold containsPos; infer_instance

/-- Rust `Rect::contains_rect(other)` on rational rectangles. -/
def containsRect (a b : QRect) : Prop :=
  a.containsPos b.minX b.minY ∧ a.containsPos b.maxX b.maxY

instance (a b : QRect) : Decidable (a.containsRect b) := by
  unfold containsRect; infer_instance

end QRect

/-- Rust `as usize` applied to an `f32` value: truncate toward zero,
saturating at zero.  For non-negative values truncation is the floor, and
negative values clamp to `0`, so this is `⌊q⌋.toNat` for every `q`. -/
def f32ToUsize (q : ℚ) : Nat := ⌊q⌋.toNat

/-- An integer-cornered rectangle viewed as an exact `f32` (rational)
rectangle. -/
def Rect.toQ (r : Rect) : QRect :=
  ⟨(r.minX : ℚ), (r.minY : ℚ), (r.maxX : ℚ), (r.maxY : ℚ)⟩

/-- Rust `Pixels2D::contains_pixel(rect)` with the caller-supplied query
rectangle kept at full `f32` generality (the mask's own rectangle is the
integer-valued one the program builds).  The `== Rect::NOTHING` early
return is dead code for finite rectangles, exactly as in
`Pixels2D.contains_pixel`. -/
def Pixels2D.contains_pixelQ (px : Pixels2D) (rect : QRect) : Bool :=
  let cb := rect.intersect px.rect.toQ
  (List.range (f32ToUsize cb.height)).any (fun dy =>
    (List.range (f32ToUsize cb.width)).any (fun dx =>
      px.pixel_at (f32ToUsize cb.minX + dx) (f32ToUsize cb.minY + dy)))

/-- Rust `BitImg::contains_pixel_in_layer(target_rect, layered)` with a
full-`f32` query rectangle; the tree rectangles are the integer-valued ones
the build produces, injected by `Rect.toQ`. -/
def BitImg.contains_pixel_in_layerQ (b : BitImg) (target : QRect) : LayeredRect → Bool
  | .Leaf rect pc =>
      if pc = 0 then false
      else if ¬ (Rect.toQ rect).intersects target then false
      else if target.containsRect (Rect.toQ rect) ∧ pc ≠ 0 then true
      else b.pixels.contains_pixelQ target
  | .Node rect c0 c1 pc =>
      if pc = 0 then false
      else if ¬ (Rect.toQ rect).intersects target then false
      else if target.containsRect (Rect.toQ rect) ∧ pc ≠ 0 then true
      else b.contains_pixel_in_layerQ target c0 || b.contains_pixel_in_layerQ target c1

/-- Rust `BitImg::contains_pixel(rect)` with a full-`f32` query rectangle:
clip the query to the mask bounds and descend the index. -/
def BitImg.contains_pixelQ (b : BitImg) (rect : QRect) : Bool :=
  b.contains_pixel_in_layerQ (rect.intersect b.pixels.rect.toQ) b.layered_rect

/-! ## Serializer (`src/img_converter.rs`)

`egui::Color32` stores four `u8` channels `[r, g, b, a]` in premultiplied
form; `to_array` returns them as stored and `from_rgba_premultiplied` stores
its arguments unchanged.  Channels are embedded as `Nat` (a Rust value is
always `< 256`).

The source writes `width`/`height` with `usize::to_ne_bytes`: the byte
length is `size_of::<usize>()` and the order is the build architecture's
native order.  The embedding makes both architecture parameters explicit
(`byteLen`, `littleEndian`); the reference architecture of the repository's
builds is 64-bit little-endian, i.e. `byteLen = 8`, `littleEndian = true`.
-/

/-- Embedding of `egui::Color32` (premultiplied RGBA, four `u8` channels). -/
structure Color32 where
  r : Nat
  g : Nat
  b : Nat
  a : Nat
  deriving DecidableEq, Repr

/-- Rust `Color32::to_array() = [r, g, b, a]` (the stored premultiplied
bytes); also the number of bytes in `COLOR_BYTE_LEN` (4). -/
def Color32.toArray (c : Color32) : List Nat := [c.r, c.g, c.b, c.a]

/-- Rust `Color32::from_rgba_premultiplied(r, g, b, a)`: stores the four
bytes unchanged. -/
def Color32.fromRgbaPremultiplied (r g b a : Nat) : Color32 := ⟨r, g, b, a⟩

/-- Embedding of `egui::ColorImage`: `size: [usize; 2]` plus a row-major
pixel sequence. -/
structure ColorImage where
  width : Nat
  height : Nat
  pixels : List Color32
  deriving DecidableEq, Repr

/-- Rust `usize::to_ne_bytes` with the architecture made explicit:
`byteLen` bytes of `n`, least significant first when `littleEndian`,
reversed otherwise. -/
def usizeToNeBytes (byteLen : Nat) (littleEndian : Bool) (n : Nat) : List Nat :=
  let le := (List.range byteLen).map (fun i => n / 256 ^ i % 256)
  if littleEndian then le else le.reverse

/-- Rust `usize::from_ne_bytes` with the architecture made explicit. -/
def usizeFromNeBytes (littleEndian : Bool) (bytes : List Nat) : Nat :=
  (if littleEndian then bytes else bytes.reverse).foldr (fun b acc => b + 256 * acc) 0

/-- Rust `img_to_u8(img)`: allocates a zero-filled buffer of
`2 * USIZE_BYTE_LEN + width * height * COLOR_BYTE_LEN` bytes, copies the two
native-endian size fields and then the pixel bytes in row-major order.
When `img.pixels` holds more than `width * height` pixels the running index
overflows the buffer and the slice write panics (`none`); when it holds
fewer, the zero fill of the remainder survives. -/
def img_to_u8 (byteLen : Nat) (littleEndian : Bool) (img : ColorImage) : Option (List Nat) :=
  let total := 2 * byteLen + img.width * img.height * 4
  let body := usizeToNeBytes byteLen littleEndian img.width ++
    usizeToNeBytes byteLen littleEndian img.height ++
    (img.pixels.map Color32.toArray).flatten
  if body.length ≤ total then some (body ++ List.replicate (total - body.length) 0)
  else none

/-- Rust slice indexing `&bin[idx..(idx + n)]`: panics (`none`) when the
range exceeds the buffer. -/
def readBytes (bin : List Nat) (idx n : Nat) : Option (List Nat) :=
  if idx + n ≤ bin.length then some ((bin.drop idx).take n) else none

/-- Builds the pixel `Color32::from_rgba_premultiplied(buf[0], buf[1],
buf[2], buf[3])` from a 4-byte slice. -/
def colorOfBytes (l : List Nat) : Color32 :=
  Color32.fromRgbaPremultiplied (l.getD 0 0) (l.getD 1 0) (l.getD 2 0) (l.getD 3 0)

/-- The pixel loop of `u8_to_img`: reads `count` 4-byte groups starting at
`idx`, panicking (`none`) when the buffer runs out. -/
def readPixels (bin : List Nat) : Nat → Nat → Option (List Color32)
  | _, 0 => some []
  | idx, count + 1 =>
    (readBytes bin idx 4).bind (fun cb =>
      (readPixels bin (idx + 4) count).map (fun rest => colorOfBytes cb :: rest))

/-- Rust `u8_to_img(bin)`: reads the two native-endian size fields and then
`width * height` 4-byte premultiplied pixels, all by direct slice indexing.
The source performs no length validation: every undersized buffer panics
(`none`); there is no error-returning path of any kind. -/
def u8_to_img (byteLen : Nat) (littleEndian : Bool) (bin : List Nat) : Option ColorImage :=
  (readBytes bin 0 byteLen).bind (fun wBytes =>
    (readBytes bin byteLen byteLen).bind (fun hBytes =>
      let width := usizeFromNeBytes littleEndian wBytes
      let height := usizeFromNeBytes littleEndian hBytes
      (readPixels bin (2 * byteLen) (width * height)).map (fun ps =>
        ⟨width, height, ps⟩)))

/-! ## Cache key (`SvgLoader::load`)

The key is computed by feeding `self.scale.to_ne_bytes()` and the raw SVG
bytes to a `sha::sha256::Sha256` hasher through `<u8 as Hash>::hash_slice`
(which forwards the slice to `Hasher::write` unchanged) and formatting
`hash.finish()` with `{:x}` (lowercase hexadecimal, no padding).  The SHA-256
digest computation itself lives in the external `sha` crate and is treated as
an abstract function `finish` of the absorbed byte stream.  The scale is an
`f32`, represented here by its 32-bit pattern `scaleBits`; on the
little-endian reference architecture `to_ne_bytes` yields its four bytes
least significant first. -/

/-- State of the `Sha256` hasher as used through `std::hash::Hasher`: the
byte stream absorbed so far. -/
structure Sha256 where
  absorbed : List Nat
  deriving DecidableEq, Repr

/-- Rust `Sha256::default()`. -/
def Sha256.default : Sha256 := ⟨[]⟩

/-- Rust `<u8 as Hash>::hash_slice(data, &mut hasher)`, which calls
`hasher.write(data)`: appends the bytes to the absorbed stream. -/
def Sha256.hashSlice (h : Sha256) (bytes : List Nat) : Sha256 :=
  ⟨h.absorbed ++ bytes⟩

/-- Rust `f32::to_ne_bytes` of the scale on the little-endian reference
architecture, as a function of the scale's 32-bit pattern. -/
def scaleNeBytes (scaleBits : Nat) : List Nat :=
  [scaleBits % 256, scaleBits / 256 % 256, scaleBits / 256 ^ 2 % 256, scaleBits / 256 ^ 3 % 256]

/-- One lowercase hexadecimal digit, as produced by Rust's `LowerHex`. -/
def hexDigit (n : Nat) : Char :=
  if n < 10 then Char.ofNat (48 + n) else Char.ofNat (87 + n)

/-- The sixteen characters Rust's `LowerHex` formatting can emit. -/
def lowerHexChars : List Char :=
  ['0', '1', '2', '3', '4', '5', '6', '7', '8', '9'] ++ ['a', 'b', 'c', 'd', 'e', 'f']

/-- Rust `format!("{:x}", n)` for an unsigned integer: minimal-width
lowercase hexadecimal (a single `'0'` for zero). -/
def toLowerHex (n : Nat) : List Char :=
  if n < 16 then [hexDigit n]
  else toLowerHex (n / 16) ++ [hexDigit (n % 16)]
termination_by n
decreasing_by omega

/-- Rust `SvgLoader::load`'s key computation: absorb the scale's native
bytes, then the SVG bytes, and format `finish` of the result in lowercase
hexadecimal.  `finish` is the external `sha` crate's digest-to-`u64`
function, abstract here. -/
def cacheKey (finish : List Nat → Nat) (scaleBits : Nat) (svgBytes : List Nat) : List Char :=
  let h := Sha256.default
  let h := h.hashSlice (scaleNeBytes scaleBits)
  let h := h.hashSlice svgBytes
  toLowerHex (finish h.absorbed)

/-! ## Canvas size of `load_svg_bytes`

`load_svg_bytes` parses the SVG (external `usvg`), takes the document's
intrinsic size, computes `w = size.width().ceil() as usize` (and likewise
`h`), and allocates the pixmap as
`Pixmap::new(((w as f32) * scale) as u32, ((h as f32) * scale) as u32)`.
The `as u32` cast truncates toward zero and saturates at `0`.  The `f32`
sizes and scale are modelled over `ℚ`; the claims about this function are
settled at values where `f32` arithmetic is exact. -/

/-- The canvas dimensions `load_svg_bytes` requests from `Pixmap::new`, as a
function of the parsed document's intrinsic size `(sw, sh)` and the scale. -/
def canvasSize (sw sh scale : ℚ) : Nat × Nat :=
  let w : Nat := ⌈sw⌉.toNat
  let h : Nat := ⌈sh⌉.toNat
  (⌊(w : ℚ) * scale⌋.toNat, ⌊(h : ℚ) * scale⌋.toNat)

/-! ## Proof infrastructure -/

/-- The set of pixel coordinates the scan loops of `pixel_count` and
`contains_pixel` visit for a rectangle: the saturating casts applied to the
corner and extent. -/
def Rect.scanMem (r : Rect) (x y : Nat) : Prop :=
  r.minX.toNat ≤ x ∧ x < r.minX.toNat + r.width.toNat ∧
  r.minY.toNat ≤ y ∧ y < r.minY.toNat + r.height.toNat

instance (r : Rect) (x y : Nat) : Decidable (r.scanMem x y) := by
  unfold Rect.scanMem; infer_instance

/-- Rectangles reachable while building a spatial index over image bounds:
non-negative corner, non-inverted. -/
def goodRect (r : Rect) : Prop :=
  0 ≤ r.minX ∧ 0 ≤ r.minY ∧ r.minX ≤ r.maxX ∧ r.minY ≤ r.maxY

/-- The scan loops of `pixel_count` written over explicit `Nat` parameters
(start and extent) instead of a rectangle. -/
def scanCount (px : Pixels2D) (sx sy w h : Nat) : Nat :=
  ((List.range h).map (fun dy =>
    (List.range w).countP (fun dx => px.pixel_at (sx + dx) (sy + dy)))).sum

/-- The structural invariant of the spatial index over a mask: every `Node`
count is the sum of its children's counts and every `Leaf` count is the
brute-force scan of its rectangle. -/
def LayeredRect.invariant (px : Pixels2D) : LayeredRect → Prop
  | .Leaf rect cnt => cnt = px.pixel_count rect
  | .Node _ c0 c1 cnt =>
      cnt = c0.pixel_count + c1.pixel_count ∧ c0.invariant px ∧ c1.invariant px

/-! ## List-arithmetic helper lemmas -/

theorem countP_range_add (p : Nat → Bool) (a b : Nat) :
    (List.range (a + b)).countP p
      = (List.range a).countP p + (List.range b).countP (fun i => p (a + i)) := by
  induction b with
  | zero => simp
  | succ n ih =>
      rw [show a + (n + 1) = (a + n) + 1 by omega, List.range_succ, List.countP_append, ih,
        List.range_succ, List.countP_append]
      simp [List.countP_cons]
      omega

theorem sum_map_range_add (f : Nat → Nat) (a b : Nat) :
    ((List.range (a + b)).map f).sum
      = ((List.range a).map f).sum + ((List.range b).map (fun i => f (a + i))).sum := by
  induction b with
  | zero => simp
  | succ n ih =>
      rw [show a + (n + 1) = (a + n) + 1 by omega, List.range_succ, List.map_append,
        List.sum_append, ih, List.range_succ, List.map_append, List.sum_append]
      simp
      omega

theorem sum_map_add_distrib (l : List Nat) (f g : Nat → Nat) :
    (l.map (fun x => f x + g x)).sum = (l.map f).sum + (l.map g).sum := by
  induction l with
  | nil => simp
  | cons x t ih => simp [ih]; omega

/-! ## Scan lemmas for the mask queries -/

theorem pixel_count_eq_scanCount (px : Pixels2D) (r : Rect) :
    px.pixel_count r = scanCount px r.minX.toNat r.minY.toNat r.width.toNat r.height.toNat :=
  rfl

theorem scanCount_split_x (px : Pixels2D) (sx sy a b h : Nat) :
    scanCount px sx sy (a + b) h
      = scanCount px sx sy a h + scanCount px (sx + a) sy b h := by
  unfold scanCount
  simp only [countP_range_add]
  rw [sum_map_add_distrib]
  simp [Nat.add_assoc]

theorem scanCount_split_y (px : Pixels2D) (sx sy w a b : Nat) :
    scanCount px sx sy w (a + b)
      = scanCount px sx sy w a + scanCount px sx (sy + a) w b := by
  unfold scanCount
  rw [sum_map_range_add]
  simp [Nat.add_assoc]

theorem scanCount_pos_iff (px : Pixels2D) (sx sy w h : Nat) :
    0 < scanCount px sx sy w h ↔
      ∃ x y : Nat, sx ≤ x ∧ x < sx + w ∧ sy ≤ y ∧ y < sy + h ∧ px.pixel_at x y = true := by
  unfold scanCount
  constructor
  · intro hpos
    by_contra hno
    push_neg at hno
    have hz : ((List.range h).map (fun dy =>
        (List.range w).countP (fun dx => px.pixel_at (sx + dx) (sy + dy)))).sum = 0 := by
      rw [List.sum_eq_zero_iff]
      intro c hc
      rcases List.mem_map.mp hc with ⟨dy, hdy, rfl⟩
      rw [List.countP_eq_zero]
      intro dx hdx
      have h1 := hno (sx + dx) (sy + dy) (by omega) (by
        have := List.mem_range.mp hdx; omega) (by omega) (by
        have := List.mem_range.mp hdy; omega)
      simp [h1]
    omega
  · rintro ⟨x, y, hx1, hx2, hy1, hy2, hp⟩
    have hmem : (List.range w).countP
        (fun dx => px.pixel_at (sx + dx) (sy + (y - sy))) ∈
        (List.range h).map (fun dy =>
          (List.range w).countP (fun dx => px.pixel_at (sx + dx) (sy + dy))) :=
      List.mem_map.mpr ⟨y - sy, List.mem_range.mpr (by omega), rfl⟩
    have hcpos : 0 < (List.range w).countP
        (fun dx => px.pixel_at (sx + dx) (sy + (y - sy))) := by
      rw [List.countP_pos_iff]
      refine ⟨x - sx, List.mem_range.mpr (by omega), ?_⟩
      rw [show sx + (x - sx) = x by omega, show sy + (y - sy) = y by omega]
      exact hp
    calc 0 < _ := hcpos
      _ ≤ _ := List.single_le_sum (by intro z hz; omega) _ hmem

theorem pixel_count_pos_iff (px : Pixels2D) (r : Rect) :
    0 < px.pixel_count r ↔ ∃ x y : Nat, r.scanMem x y ∧ px.pixel_at x y = true := by
  rw [pixel_count_eq_scanCount, scanCount_pos_iff]
  unfold Rect.scanMem
  constructor
  · rintro ⟨x, y, h1, h2, h3, h4, h5⟩; exact ⟨x, y, ⟨h1, h2, h3, h4⟩, h5⟩
  · rintro ⟨x, y, ⟨h1, h2, h3, h4⟩, h5⟩; exact ⟨x, y, h1, h2, h3, h4, h5⟩

theorem contains_pixel_iff (px : Pixels2D) (r : Rect) :
    px.contains_pixel r = true ↔
      ∃ x y : Nat, (r.intersect px.rect).scanMem x y ∧ px.pixel_at x y = true := by
  unfold Pixels2D.contains_pixel Rect.scanMem
  simp only [List.any_eq_true, List.mem_range]
  constructor
  · rintro ⟨dy, hdy, dx, hdx, hp⟩
    exact ⟨(r.intersect px.rect).minX.toNat + dx, (r.intersect px.rect).minY.toNat + dy,
      ⟨by omega, by omega, by omega, by omega⟩, hp⟩
  · rintro ⟨x, y, ⟨hx1, hx2, hy1, hy2⟩, hp⟩
    refine ⟨y - (r.intersect px.rect).minY.toNat, by omega,
      x - (r.intersect px.rect).minX.toNat, by omega, ?_⟩
    rwa [show (r.intersect px.rect).minX.toNat + (x - (r.intersect px.rect).minX.toNat)
        = x by omega,
      show (r.intersect px.rect).minY.toNat + (y - (r.intersect px.rect).minY.toNat)
        = y by omega]

theorem scanMem_iff_of_nonneg (r : Rect) (hx : 0 ≤ r.minX) (hy : 0 ≤ r.minY) (x y : Nat) :
    r.scanMem x y ↔
      r.minX ≤ (x : Int) ∧ (x : Int) < r.maxX ∧ r.minY ≤ (y : Int) ∧ (y : Int) < r.maxY := by
  unfold Rect.scanMem Rect.width Rect.height
  omega

theorem scanCount_split_x_at (px : Pixels2D) (sx sy w h a : Nat) (ha : a ≤ w) :
    scanCount px sx sy w h = scanCount px sx sy a h + scanCount px (sx + a) sy (w - a) h := by
  conv_lhs => rw [show w = a + (w - a) by omega]
  exact scanCount_split_x px sx sy a (w - a) h

theorem scanCount_split_y_at (px : Pixels2D) (sx sy w h a : Nat) (ha : a ≤ h) :
    scanCount px sx sy w h = scanCount px sx sy w a + scanCount px sx (sy + a) w (h - a) := by
  conv_lhs => rw [show h = a + (h - a) by omega]
  exact scanCount_split_y px sx sy w a (h - a)

/-! ## Count correctness of the spatial index -/

theorem pixel_count_Leaf (r : Rect) (c : Nat) : (LayeredRect.Leaf r c).pixel_count = c := rfl

theorem pixel_count_Node (r : Rect) (c0 c1 : LayeredRect) (c : Nat) :
    (LayeredRect.Node r c0 c1 c).pixel_count = c := rfl

theorem pixel_count_split_horizontal (px : Pixels2D) (r : Rect)
    (hx : 0 ≤ r.minX) (hw : 0 ≤ r.width) :
    px.pixel_count r
      = px.pixel_count (split_horizontal r).1 + px.pixel_count (split_horizontal r).2 := by
  obtain ⟨ax, ay, cx, cy⟩ := r
  have hx' : 0 ≤ ax := hx
  have hw' : 0 ≤ cx - ax := hw
  rw [pixel_count_eq_scanCount, pixel_count_eq_scanCount, pixel_count_eq_scanCount]
  simp only [split_horizontal, Rect.fromMinSize, Rect.width, Rect.height]
  rw [show (ax + ((cx - ax).toNat / 2 : Nat) - ax).toNat = (cx - ax).toNat / 2 by omega,
    show (ax + ((cx - ax).toNat / 2 : Nat)).toNat = ax.toNat + (cx - ax).toNat / 2 by omega,
    show (ax + ((cx - ax).toNat / 2 : Nat) + (cx - ax - ((cx - ax).toNat / 2 : Nat))
        - (ax + ((cx - ax).toNat / 2 : Nat))).toNat
      = (cx - ax).toNat - (cx - ax).toNat / 2 by omega,
    show (ay + (cy - ay) - ay).toNat = (cy - ay).toNat by omega]
  exact scanCount_split_x_at px ax.toNat ay.toNat (cx - ax).toNat (cy - ay).toNat
    ((cx - ax).toNat / 2) (by omega)

theorem pixel_count_split_vertical (px : Pixels2D) (r : Rect)
    (hy : 0 ≤ r.minY) (hh : 0 ≤ r.height) :
    px.pixel_count r
      = px.pixel_count (split_vertical r).1 + px.pixel_count (split_vertical r).2 := by
  obtain ⟨ax, ay, cx, cy⟩ := r
  have hy' : 0 ≤ ay := hy
  have hh' : 0 ≤ cy - ay := hh
  rw [pixel_count_eq_scanCount, pixel_count_eq_scanCount, pixel_count_eq_scanCount]
  simp only [split_vertical, Rect.fromMinSize, Rect.width, Rect.height]
  rw [show (ay + ((cy - ay).toNat / 2 : Nat) - ay).toNat = (cy - ay).toNat / 2 by omega,
    show (ay + ((cy - ay).toNat / 2 : Nat)).toNat = ay.toNat + (cy - ay).toNat / 2 by omega,
    show (ay + ((cy - ay).toNat / 2 : Nat) + (cy - ay - ((cy - ay).toNat / 2 : Nat))
        - (ay + ((cy - ay).toNat / 2 : Nat))).toNat
      = (cy - ay).toNat - (cy - ay).toNat / 2 by omega,
    show (ax + (cx - ax) - ax).toNat = (cx - ax).toNat by omega]
  exact scanCount_split_y_at px ax.toNat ay.toNat (cx - ax).toNat (cy - ay).toNat
    ((cy - ay).toNat / 2) (by omega)

theorem layered_new_count (r : Rect) (px : Pixels2D) :
    0 ≤ r.minX → 0 ≤ r.minY → (LayeredRect.new r px).pixel_count = px.pixel_count r := by
  induction r, px using LayeredRect.new.induct with
  | case1 rect px h ih1 ih2 =>
    intro hx hy
    simp only [MIN_NODE_SIZE] at h
    rw [LayeredRect.new]
    rw [if_pos (by simpa [MIN_NODE_SIZE] using h)]
    rw [pixel_count_Node]
    rw [ih1 (by simp [split_horizontal, Rect.fromMinSize]; omega)
        (by simp [split_horizontal, Rect.fromMinSize]; omega),
      ih2 (by simp [split_horizontal, Rect.fromMinSize]; omega)
        (by simp [split_horizontal, Rect.fromMinSize]; omega)]
    exact (pixel_count_split_horizontal px rect hx (by simp [Rect.width] at h ⊢; omega)).symm
  | case2 rect px h1 h2 ih1 ih2 =>
    intro hx hy
    simp only [MIN_NODE_SIZE] at h2
    rw [LayeredRect.new]
    rw [if_neg (by simpa [MIN_NODE_SIZE] using h1),
      if_pos (by simpa [MIN_NODE_SIZE] using h2)]
    rw [pixel_count_Node]
    rw [ih1 (by simp [split_vertical, Rect.fromMinSize]; omega)
        (by simp [split_vertical, Rect.fromMinSize]; omega),
      ih2 (by simp [split_vertical, Rect.fromMinSize]; omega)
        (by simp [split_vertical, Rect.fromMinSize]; omega)]
    exact (pixel_count_split_vertical px rect hy (by simp [Rect.height] at h2 ⊢; omega)).symm
  | case3 rect px h1 h2 =>
    intro hx hy
    rw [LayeredRect.new]
    rw [if_neg (by simpa [MIN_NODE_SIZE] using h1),
      if_neg (by simpa [MIN_NODE_SIZE] using h2)]
    rfl

/-! ## Query equivalence of the spatial index -/

theorem goodRect_split_horizontal (r : Rect) (hg : goodRect r)
    (hw : MIN_NODE_SIZE < r.width) :
    goodRect (split_horizontal r).1 ∧ goodRect (split_horizontal r).2 := by
  obtain ⟨ax, ay, cx, cy⟩ := r
  unfold goodRect split_horizontal Rect.fromMinSize Rect.width Rect.height at *
  simp only [MIN_NODE_SIZE] at hw
  simp only at hg ⊢
  omega

theorem goodRect_split_vertical (r : Rect) (hg : goodRect r)
    (hh : MIN_NODE_SIZE < r.height) :
    goodRect (split_vertical r).1 ∧ goodRect (split_vertical r).2 := by
  obtain ⟨ax, ay, cx, cy⟩ := r
  unfold goodRect split_vertical Rect.fromMinSize Rect.width Rect.height at *
  simp only [MIN_NODE_SIZE] at hh
  simp only at hg ⊢
  omega

theorem scanMem_split_horizontal (r : Rect) (hg : goodRect r) (x y : Nat)
    (hm : r.scanMem x y) :
    (split_horizontal r).1.scanMem x y ∨ (split_horizontal r).2.scanMem x y := by
  obtain ⟨ax, ay, cx, cy⟩ := r
  unfold goodRect Rect.scanMem split_horizontal Rect.fromMinSize Rect.width Rect.height at *
  simp only at hg hm ⊢
  omega

theorem scanMem_split_vertical (r : Rect) (hg : goodRect r) (x y : Nat)
    (hm : r.scanMem x y) :
    (split_vertical r).1.scanMem x y ∨ (split_vertical r).2.scanMem x y := by
  obtain ⟨ax, ay, cx, cy⟩ := r
  unfold goodRect Rect.scanMem split_vertical Rect.fromMinSize Rect.width Rect.height at *
  simp only at hg hm ⊢
  omega

theorem intersects_of_shared_scan (rch cb : Rect) (x y : Nat)
    (hg : goodRect rch) (hcbx : 0 ≤ cb.minX) (hcby : 0 ≤ cb.minY)
    (h1 : rch.scanMem x y) (h2 : cb.scanMem x y) :
    rch.intersects cb := by
  unfold goodRect Rect.scanMem Rect.intersects Rect.width Rect.height at *
  omega

theorem scanMem_of_contained (rch cb : Rect) (x y : Nat)
    (hg : goodRect rch) (hm : rch.scanMem x y) (hcont : cb.containsRect rch) :
    cb.scanMem x y := by
  unfold goodRect Rect.scanMem Rect.containsRect Rect.containsPos Rect.width Rect.height at *
  omega

theorem contains_pixel_of_scanMem (px : Pixels2D) (cb : Rect)
    (hidem : cb.intersect px.rect = cb) (x y : Nat) (hm : cb.scanMem x y)
    (hp : px.pixel_at x y = true) : px.contains_pixel cb = true := by
  rw [contains_pixel_iff, hidem]
  exact ⟨x, y, hm, hp⟩

theorem contained_pixel_found (px : Pixels2D) (cb rch : Rect)
    (hidem : cb.intersect px.rect = cb) (hg : goodRect rch)
    (hcont : cb.containsRect rch) (hpos : 0 < px.pixel_count rch) :
    px.contains_pixel cb = true := by
  rcases (pixel_count_pos_iff px rch).mp hpos with ⟨x, y, hm, hp⟩
  exact contains_pixel_of_scanMem px cb hidem x y (scanMem_of_contained rch cb x y hg hm hcont) hp

theorem layer_query_sound (cb : Rect) : ∀ (r : Rect) (px : Pixels2D),
    cb.intersect px.rect = cb → goodRect r →
    (BitImg.new px).contains_pixel_in_layer cb (LayeredRect.new r px) = true →
    px.contains_pixel cb = true := by
  intro r px
  induction r, px using LayeredRect.new.induct with
  | case1 rect px h ih1 ih2 =>
    intro hidem hg ht
    rw [LayeredRect.new, if_pos h] at ht
    simp only [BitImg.contains_pixel_in_layer] at ht
    by_cases hc0 : (LayeredRect.new (split_horizontal rect).1 px).pixel_count +
        (LayeredRect.new (split_horizontal rect).2 px).pixel_count = 0
    · rw [if_pos hc0] at ht; exact absurd ht (by simp)
    · rw [if_neg hc0] at ht
      by_cases hint : ¬ rect.intersects cb
      · rw [if_pos hint] at ht; exact absurd ht (by simp)
      · rw [if_neg hint] at ht
        by_cases hcont : cb.containsRect rect ∧
            (LayeredRect.new (split_horizontal rect).1 px).pixel_count +
              (LayeredRect.new (split_horizontal rect).2 px).pixel_count ≠ 0
        · have hcnt : px.pixel_count rect =
              (LayeredRect.new (split_horizontal rect).1 px).pixel_count +
                (LayeredRect.new (split_horizontal rect).2 px).pixel_count := by
            rw [← layered_new_count rect px hg.1 hg.2.1, LayeredRect.new, if_pos h,
              pixel_count_Node]
          exact contained_pixel_found px cb rect hidem hg hcont.1 (by omega)
        · rw [if_neg hcont] at ht
          rcases Bool.or_eq_true_iff.mp ht with h1 | h1
          · exact ih1 hidem (goodRect_split_horizontal rect hg h).1 h1
          · exact ih2 hidem (goodRect_split_horizontal rect hg h).2 h1
  | case2 rect px h1 h2 ih1 ih2 =>
    intro hidem hg ht
    rw [LayeredRect.new, if_neg h1, if_pos h2] at ht
    simp only [BitImg.contains_pixel_in_layer] at ht
    by_cases hc0 : (LayeredRect.new (split_vertical rect).1 px).pixel_count +
        (LayeredRect.new (split_vertical rect).2 px).pixel_count = 0
    · rw [if_pos hc0] at ht; exact absurd ht (by simp)
    · rw [if_neg hc0] at ht
      by_cases hint : ¬ rect.intersects cb
      · rw [if_pos hint] at ht; exact absurd ht (by simp)
      · rw [if_neg hint] at ht
        by_cases hcont : cb.containsRect rect ∧
            (LayeredRect.new (split_vertical rect).1 px).pixel_count +
              (LayeredRect.new (split_vertical rect).2 px).pixel_count ≠ 0
        · have hcnt : px.pixel_count rect =
              (LayeredRect.new (split_vertical rect).1 px).pixel_count +
                (LayeredRect.new (split_vertical rect).2 px).pixel_count := by
            rw [← layered_new_count rect px hg.1 hg.2.1, LayeredRect.new, if_neg h1,
              if_pos h2, pixel_count_Node]
          exact contained_pixel_found px cb rect hidem hg hcont.1 (by omega)
        · rw [if_neg hcont] at ht
          rcases Bool.or_eq_true_iff.mp ht with hb | hb
          · exact ih1 hidem (goodRect_split_vertical rect hg h2).1 hb
          · exact ih2 hidem (goodRect_split_vertical rect hg h2).2 hb
  | case3 rect px h1 h2 =>
    intro hidem hg ht
    rw [LayeredRect.new, if_neg h1, if_neg h2] at ht
    simp only [BitImg.contains_pixel_in_layer] at ht
    by_cases hc0 : px.pixel_count rect = 0
    · rw [if_pos hc0] at ht; exact absurd ht (by simp)
    · rw [if_neg hc0] at ht
      by_cases hint : ¬ rect.intersects cb
      · rw [if_pos hint] at ht; exact absurd ht (by simp)
      · rw [if_neg hint] at ht
        by_cases hcont : cb.containsRect rect ∧ px.pixel_count rect ≠ 0
        · exact contained_pixel_found px cb rect hidem hg hcont.1 (by omega)
        · rw [if_neg hcont] at ht
          exact ht

theorem layer_query_complete (cb : Rect) (hcbx : 0 ≤ cb.minX) (hcby : 0 ≤ cb.minY) :
    ∀ (r : Rect) (px : Pixels2D),
      cb.intersect px.rect = cb → goodRect r →
      (∃ x y : Nat, r.scanMem x y ∧ cb.scanMem x y ∧ px.pixel_at x y = true) →
      (BitImg.new px).contains_pixel_in_layer cb (LayeredRect.new r px) = true := by
  intro r px
  induction r, px using LayeredRect.new.induct with
  | case1 rect px h ih1 ih2 =>
    intro hidem hg hex
    obtain ⟨x, y, hmr, hmc, hp⟩ := hex
    rw [LayeredRect.new, if_pos h]
    simp only [BitImg.contains_pixel_in_layer]
    have hcnt : px.pixel_count rect =
        (LayeredRect.new (split_horizontal rect).1 px).pixel_count +
          (LayeredRect.new (split_horizontal rect).2 px).pixel_count := by
      rw [← layered_new_count rect px hg.1 hg.2.1, LayeredRect.new, if_pos h, pixel_count_Node]
    have hpos : 0 < px.pixel_count rect := (pixel_count_pos_iff px rect).mpr ⟨x, y, hmr, hp⟩
    rw [if_neg (by omega)]
    rw [if_neg (not_not_intro (intersects_of_shared_scan rect cb x y hg hcbx hcby hmr hmc))]
    by_cases hcont : cb.containsRect rect ∧
        (LayeredRect.new (split_horizontal rect).1 px).pixel_count +
          (LayeredRect.new (split_horizontal rect).2 px).pixel_count ≠ 0
    · rw [if_pos hcont]
    · rw [if_neg hcont]
      rcases scanMem_split_horizontal rect hg x y hmr with hside | hside
      · rw [ih1 hidem (goodRect_split_horizontal rect hg h).1 ⟨x, y, hside, hmc, hp⟩]
        rfl
      · rw [ih2 hidem (goodRect_split_horizontal rect hg h).2 ⟨x, y, hside, hmc, hp⟩]
        simp
  | case2 rect px h1 h2 ih1 ih2 =>
    intro hidem hg hex
    obtain ⟨x, y, hmr, hmc, hp⟩ := hex
    rw [LayeredRect.new, if_neg h1, if_pos h2]
    simp only [BitImg.contains_pixel_in_layer]
    have hcnt : px.pixel_count rect =
        (LayeredRect.new (split_vertical rect).1 px).pixel_count +
          (LayeredRect.new (split_vertical rect).2 px).pixel_count := by
      rw [← layered_new_count rect px hg.1 hg.2.1, LayeredRect.new, if_neg h1, if_pos h2,
        pixel_count_Node]
    have hpos : 0 < px.pixel_count rect := (pixel_count_pos_iff px rect).mpr ⟨x, y, hmr, hp⟩
    rw [if_neg (by omega)]
    rw [if_neg (not_not_intro (intersects_of_shared_scan rect cb x y hg hcbx hcby hmr hmc))]
    by_cases hcont : cb.containsRect rect ∧
        (LayeredRect.new (split_vertical rect).1 px).pixel_count +
          (LayeredRect.new (split_vertical rect).2 px).pixel_count ≠ 0
    · rw [if_pos hcont]
    · rw [if_neg hcont]
      rcases scanMem_split_vertical rect hg x y hmr with hside | hside
      · rw [ih1 hidem (goodRect_split_vertical rect hg h2).1 ⟨x, y, hside, hmc, hp⟩]
        rfl
      · rw [ih2 hidem (goodRect_split_vertical rect hg h2).2 ⟨x, y, hside, hmc, hp⟩]
        simp
  | case3 rect px h1 h2 =>
    intro hidem hg hex
    obtain ⟨x, y, hmr, hmc, hp⟩ := hex
    rw [LayeredRect.new, if_neg h1, if_neg h2]
    simp only [BitImg.contains_pixel_in_layer]
    have hpos : 0 < px.pixel_count rect := (pixel_count_pos_iff px rect).mpr ⟨x, y, hmr, hp⟩
    rw [if_neg (by omega)]
    rw [if_neg (not_not_intro (intersects_of_shared_scan rect cb x y hg hcbx hcby hmr hmc))]
    by_cases hcont : cb.containsRect rect ∧ px.pixel_count rect ≠ 0
    · rw [if_pos hcont]
    · rw [if_neg hcont]
      exact contains_pixel_of_scanMem px cb hidem x y hmc hp

theorem layered_new_invariant (r : Rect) (px : Pixels2D) :
    (LayeredRect.new r px).invariant px := by
  induction r, px using LayeredRect.new.induct with
  | case1 rect px h ih1 ih2 =>
    rw [LayeredRect.new, if_pos (by simpa [MIN_NODE_SIZE] using h)]
    exact ⟨rfl, ih1, ih2⟩
  | case2 rect px h1 h2 ih1 ih2 =>
    rw [LayeredRect.new, if_neg (by simpa [MIN_NODE_SIZE] using h1),
      if_pos (by simpa [MIN_NODE_SIZE] using h2)]
    exact ⟨rfl, ih1, ih2⟩
  | case3 rect px h1 h2 =>
    rw [LayeredRect.new, if_neg (by simpa [MIN_NODE_SIZE] using h1),
      if_neg (by simpa [MIN_NODE_SIZE] using h2)]
    exact rfl

/-- Helper: on the integer lattice, for every pixel mask built over image
bounds (origin at zero) and every integer-cornered query rectangle
(zero-area, out-of-bounds and fully-covering rects included), the indexed
query agrees with the brute-force mask query applied to the intersection of
the query rectangle with the mask's bounds. -/
theorem bitimg_query_equiv_brute_force (bits : Finset Nat) (w h : Nat) (rect : Rect) :
    (BitImg.new ⟨bits, ⟨0, 0, (w : Int), (h : Int)⟩⟩).contains_pixel rect
      = (⟨bits, ⟨0, 0, (w : Int), (h : Int)⟩⟩ : Pixels2D).contains_pixel
          (rect.intersect ⟨0, 0, (w : Int), (h : Int)⟩) := by
  have hidem : (rect.intersect ⟨0, 0, (w : Int), (h : Int)⟩).intersect
      (⟨bits, ⟨0, 0, (w : Int), (h : Int)⟩⟩ : Pixels2D).rect
        = rect.intersect ⟨0, 0, (w : Int), (h : Int)⟩ :=
    Rect.intersect_idem_right rect ⟨0, 0, (w : Int), (h : Int)⟩
  have hcbx : 0 ≤ (rect.intersect ⟨0, 0, (w : Int), (h : Int)⟩).minX := le_max_right _ _
  have hcby : 0 ≤ (rect.intersect ⟨0, 0, (w : Int), (h : Int)⟩).minY := le_max_right _ _
  have hgood : goodRect (⟨0, 0, (w : Int), (h : Int)⟩ : Rect) :=
    ⟨le_refl _, le_refl _, Int.ofNat_nonneg w, Int.ofNat_nonneg h⟩
  show (BitImg.new ⟨bits, ⟨0, 0, (w : Int), (h : Int)⟩⟩).contains_pixel_in_layer
      (rect.intersect ⟨0, 0, (w : Int), (h : Int)⟩)
      (LayeredRect.new ⟨0, 0, (w : Int), (h : Int)⟩ ⟨bits, ⟨0, 0, (w : Int), (h : Int)⟩⟩)
    = (⟨bits, ⟨0, 0, (w : Int), (h : Int)⟩⟩ : Pixels2D).contains_pixel
        (rect.intersect ⟨0, 0, (w : Int), (h : Int)⟩)
  cases hq : (⟨bits, ⟨0, 0, (w : Int), (h : Int)⟩⟩ : Pixels2D).contains_pixel
      (rect.intersect ⟨0, 0, (w : Int), (h : Int)⟩) with
  | true =>
    rcases (contains_pixel_iff _ _).mp hq with ⟨x, y, hm, hp⟩
    rw [hidem] at hm
    have hbnd : (⟨0, 0, (w : Int), (h : Int)⟩ : Rect).scanMem x y := by
      have h1 : (rect.intersect ⟨0, 0, (w : Int), (h : Int)⟩).maxX ≤ (w : Int) :=
        min_le_right _ _
      have h2 : (rect.intersect ⟨0, 0, (w : Int), (h : Int)⟩).maxY ≤ (h : Int) :=
        min_le_right _ _
      unfold Rect.scanMem Rect.width Rect.height at hm ⊢
      dsimp only
      omega
    exact layer_query_complete _ hcbx hcby _ _ hidem hgood ⟨x, y, hbnd, hm, hp⟩
  | false =>
    cases hL : (BitImg.new ⟨bits, ⟨0, 0, (w : Int), (h : Int)⟩⟩).contains_pixel_in_layer
        (rect.intersect ⟨0, 0, (w : Int), (h : Int)⟩)
        (LayeredRect.new ⟨0, 0, (w : Int), (h : Int)⟩ ⟨bits, ⟨0, 0, (w : Int), (h : Int)⟩⟩) with
    | false => rfl
    | true =>
      exact absurd (layer_query_sound _ _ _ hidem hgood hL) (by simp [hq])

/-- Claim C2: for every mask and every rectangle with non-negative corner
(the rectangles the program builds start at the origin), the spatial index
built by `LayeredRect::new` has a root `pixel_count` equal to the
brute-force count over the root rectangle, every `Node` count equal to the
sum of its children's counts, and every `Leaf` count equal to the
brute-force scan of the leaf rectangle. -/
theorem spatial_index_count_invariant (px : Pixels2D) (r : Rect)
    (hx : 0 ≤ r.minX) (hy : 0 ≤ r.minY) :
    (LayeredRect.new r px).pixel_count = px.pixel_count r ∧
    (LayeredRect.new r px).invariant px :=
  ⟨layered_new_count r px hx hy, layered_new_invariant r px⟩

/-- Witness for C2 at the repository's own 4-by-3 test mask. -/
theorem spatial_index_count_invariant_witness :
    (LayeredRect.new ⟨0, 0, 4, 3⟩ ⟨{0, 3, 6, 8, 9, 10}, ⟨0, 0, 4, 3⟩⟩).pixel_count
        = (⟨{0, 3, 6, 8, 9, 10}, ⟨0, 0, 4, 3⟩⟩ : Pixels2D).pixel_count ⟨0, 0, 4, 3⟩
      ∧ (LayeredRect.new ⟨0, 0, 4, 3⟩ ⟨{0, 3, 6, 8, 9, 10}, ⟨0, 0, 4, 3⟩⟩).invariant
          ⟨{0, 3, 6, 8, 9, 10}, ⟨0, 0, 4, 3⟩⟩ :=
  spatial_index_count_invariant ⟨{0, 3, 6, 8, 9, 10}, ⟨0, 0, 4, 3⟩⟩ ⟨0, 0, 4, 3⟩
    (by decide) (by decide)

/-- Claim C6: construction always attempts the horizontal split first: for
every rectangle wider than `MIN_NODE_SIZE` the root is a `Node` whose left
child covers `floor(width / 2)` columns and whose right child covers the
remaining columns, both at full height, exactly partitioning the parent. -/
theorem layered_new_horizontal_split_first (px : Pixels2D) (r : Rect)
    (h : MIN_NODE_SIZE < r.width) :
    LayeredRect.new r px =
      LayeredRect.Node r
        (LayeredRect.new (split_horizontal r).1 px)
        (LayeredRect.new (split_horizontal r).2 px)
        ((LayeredRect.new (split_horizontal r).1 px).pixel_count +
          (LayeredRect.new (split_horizontal r).2 px).pixel_count)
    ∧ (split_horizontal r).1.width = ((r.width.toNat / 2 : Nat) : Int)
    ∧ (split_horizontal r).2.width = r.width - ((r.width.toNat / 2 : Nat) : Int)
    ∧ (split_horizontal r).1.height = r.height
    ∧ (split_horizontal r).2.height = r.height
    ∧ (split_horizontal r).1.minX = r.minX
    ∧ (split_horizontal r).1.minY = r.minY
    ∧ (split_horizontal r).2.minY = r.minY
    ∧ (split_horizontal r).1.maxX = (split_horizontal r).2.minX
    ∧ (split_horizontal r).2.maxX = r.maxX
    ∧ (split_horizontal r).1.maxY = r.maxY
    ∧ (split_horizontal r).2.maxY = r.maxY := by
  refine ⟨by rw [LayeredRect.new, if_pos h], ?_, ?_, ?_, ?_, ?_, ?_, ?_, ?_, ?_, ?_, ?_⟩ <;>
    · obtain ⟨ax, ay, cx, cy⟩ := r
      simp only [split_horizontal, Rect.fromMinSize, Rect.width, Rect.height,
        MIN_NODE_SIZE] at *
      try omega

/-- Witness for C6: the claim's own example, a rect of width 4 and height 3
splitting into a left half of width 2 (full height) and a right half of
width 2 at x-offset 2 (full height). -/
theorem layered_new_horizontal_split_first_witness :
    (split_horizontal ⟨0, 0, 4, 3⟩).1 = (⟨0, 0, 2, 3⟩ : Rect)
    ∧ (split_horizontal ⟨0, 0, 4, 3⟩).2 = (⟨2, 0, 4, 3⟩ : Rect)
    ∧ LayeredRect.new ⟨0, 0, 4, 3⟩ ⟨∅, ⟨0, 0, 4, 3⟩⟩ =
        LayeredRect.Node ⟨0, 0, 4, 3⟩
          (LayeredRect.new ⟨0, 0, 2, 3⟩ ⟨∅, ⟨0, 0, 4, 3⟩⟩)
          (LayeredRect.new ⟨2, 0, 4, 3⟩ ⟨∅, ⟨0, 0, 4, 3⟩⟩)
          ((LayeredRect.new ⟨0, 0, 2, 3⟩ ⟨∅, ⟨0, 0, 4, 3⟩⟩).pixel_count +
            (LayeredRect.new ⟨2, 0, 4, 3⟩ ⟨∅, ⟨0, 0, 4, 3⟩⟩).pixel_count) := by
  refine ⟨by decide, by decide, ?_⟩
  have hmain :=
    (layered_new_horizontal_split_first ⟨∅, ⟨0, 0, 4, 3⟩⟩ ⟨0, 0, 4, 3⟩ (by decide)).1
  rw [show (split_horizontal ⟨0, 0, 4, 3⟩).1 = (⟨0, 0, 2, 3⟩ : Rect) from by decide,
    show (split_horizontal ⟨0, 0, 4, 3⟩).2 = (⟨2, 0, 4, 3⟩ : Rect) from by decide] at hmain
  exact hmain

/-- Claim C7 counterexample: `pixel_count` does not clip its rectangle to
the mask bounds.  For the 2-by-2 mask with bit 2 set, the rectangle from
(2,0) to (3,1) lies entirely outside the bounds (the intersection is empty),
yet `pixel_count` returns 1 because the scan wraps into the next row. -/
theorem pixel_count_ignores_mask_bounds :
    ((Rect.intersect ⟨2, 0, 3, 1⟩ ⟨0, 0, 2, 2⟩).width ≤ 0
        ∨ (Rect.intersect ⟨2, 0, 3, 1⟩ ⟨0, 0, 2, 2⟩).height ≤ 0)
    ∧ (⟨{2}, ⟨0, 0, 2, 2⟩⟩ : Pixels2D).pixel_count ⟨2, 0, 3, 1⟩ = 1 := by
  constructor
  · left; decide
  · decide

/-- Claim C7 amended: `contains_pixel` clips its rectangle to the
intersection with the mask bounds, and an empty intersection yields `false`
(the loop bounds are 0, so no pixel is scanned); `pixel_count`, by contrast,
scans its rectangle as given without clipping. -/
theorem contains_pixel_clips_to_bounds (px : Pixels2D) (r : Rect) :
    px.contains_pixel r = px.contains_pixel (r.intersect px.rect)
    ∧ ((r.intersect px.rect).width ≤ 0 ∨ (r.intersect px.rect).height ≤ 0 →
        px.contains_pixel r = false) := by
  constructor
  · unfold Pixels2D.contains_pixel
    rw [Rect.intersect_idem_right]
  · intro hempty
    rcases hempty with hw | hh
    · have h0 : (r.intersect px.rect).width.toNat = 0 := by omega
      simp [Pixels2D.contains_pixel, h0]
    · have h0 : (r.intersect px.rect).height.toNat = 0 := by omega
      simp [Pixels2D.contains_pixel, h0]

/-- Witness for the amended C7: on the mask of the counterexample,
`contains_pixel` (unlike `pixel_count`) does return `false` for the same
out-of-bounds rectangle. -/
theorem contains_pixel_clips_to_bounds_witness :
    (⟨{2}, ⟨0, 0, 2, 2⟩⟩ : Pixels2D).contains_pixel ⟨2, 0, 3, 1⟩ = false :=
  (contains_pixel_clips_to_bounds ⟨{2}, ⟨0, 0, 2, 2⟩⟩ ⟨2, 0, 3, 1⟩).2 (by decide)

/-- Claim C10: `pixel_at` is total (it returns a boolean for every
coordinate; an index beyond the stored bit set is simply absent, giving
`false`), and for `x` at or past the mask width the computed bit index
`x + y * width` wraps into the next row: `pixel_at x y` equals
`pixel_at (x - width) (y + 1)`. -/
theorem pixel_at_total_and_wraps (px : Pixels2D) (x y : Nat) :
    (px.rect.width.toNat ≤ x →
      px.pixel_at x y = px.pixel_at (x - px.rect.width.toNat) (y + 1))
    ∧ (x + y * px.rect.width.toNat ∉ px.bits → px.pixel_at x y = false) := by
  constructor
  · intro hx
    unfold Pixels2D.pixel_at
    have hidx : (x - px.rect.width.toNat) + (y + 1) * px.rect.width.toNat
        = x + y * px.rect.width.toNat := by
      rw [Nat.succ_mul]
      omega
    rw [hidx]
  · intro hmem
    unfold Pixels2D.pixel_at
    simp [hmem]

/-- Witness for C10: on the 2-wide mask with bit 2 set, the query (2,0)
past the right edge wraps to (0,1) and reports an opaque pixel. -/
theorem pixel_at_total_and_wraps_witness :
    (⟨{2}, ⟨0, 0, 2, 2⟩⟩ : Pixels2D).pixel_at 2 0
        = (⟨{2}, ⟨0, 0, 2, 2⟩⟩ : Pixels2D).pixel_at (2 - 2) (0 + 1)
    ∧ (⟨{2}, ⟨0, 0, 2, 2⟩⟩ : Pixels2D).pixel_at 2 0 = true :=
  ⟨(pixel_at_total_and_wraps ⟨{2}, ⟨0, 0, 2, 2⟩⟩ 2 0).1 (by decide), by decide⟩

/-- Claim C9 counterexample: for a document of intrinsic size 3 by 3 at
scale 1/2 (all values exactly representable in `f32`), the code requests a
canvas of width 1 (`(3.0 * 0.5) as u32` truncates 1.5), while the claim's
`ceil(w * scale)` is 2. -/
theorem canvas_size_not_rounded_up :
    (canvasSize 3 3 (1 / 2)).1 = 1 ∧ ⌈(3 : ℚ) * (1 / 2)⌉ = 2 := by
  constructor
  · have hc : ⌈(3 : ℚ)⌉ = 3 := by rw [Int.ceil_eq_iff]; norm_num
    simp only [canvasSize, hc]
    have hf : ⌊(((3 : Int).toNat : ℚ)) * (1 / 2)⌋ = 1 := by
      rw [show (((3 : Int).toNat : ℚ)) = 3 by simp, Int.floor_eq_iff]
      norm_num
    rw [hf]
    rfl
  · rw [Int.ceil_eq_iff]; norm_num

/-- Claim C9 amended: `load_svg_bytes` rounds the intrinsic dimensions up to
whole pixels first and then truncates the scaled dimensions toward zero:
the canvas width is `floor(ceil(w) * scale)` (saturating at 0), which is at
most the claim's `ceil`, and agrees with the claim exactly when
`ceil(w) * scale` is a whole number. -/
theorem canvas_size_truncates_after_ceil (sw sh scale : ℚ) :
    canvasSize sw sh scale
        = (⌊(⌈sw⌉.toNat : ℚ) * scale⌋.toNat, ⌊(⌈sh⌉.toNat : ℚ) * scale⌋.toNat)
    ∧ (canvasSize sw sh scale).1 ≤ ⌈(⌈sw⌉.toNat : ℚ) * scale⌉.toNat
    ∧ (((⌈sw⌉.toNat : ℚ) * scale).den = 1 →
        (canvasSize sw sh scale).1 = ⌈(⌈sw⌉.toNat : ℚ) * scale⌉.toNat) := by
  refine ⟨rfl, Int.toNat_le_toNat (Int.floor_le_ceil _), ?_⟩
  intro hden
  show ⌊(⌈sw⌉.toNat : ℚ) * scale⌋.toNat = ⌈(⌈sw⌉.toNat : ℚ) * scale⌉.toNat
  have hint : ((⌈sw⌉.toNat : ℚ) * scale) = ((((⌈sw⌉.toNat : ℚ) * scale).num : Int) : ℚ) :=
    ((Rat.den_eq_one_iff _).mp hden).symm
  rw [hint, Int.floor_intCast, Int.ceil_intCast]

/-- Witness for the amended C9: at intrinsic width 3 and the whole-number
scale 2 the truncated canvas width agrees with the rounded-up value. -/
theorem canvas_size_truncates_after_ceil_witness :
    (canvasSize 3 3 2).1 = ⌈((⌈(3 : ℚ)⌉.toNat : ℚ)) * 2⌉.toNat :=
  (canvas_size_truncates_after_ceil 3 3 2).2.2 (by
    rw [show ⌈(3 : ℚ)⌉ = 3 by rw [Int.ceil_eq_iff]; norm_num,
      show ((((3 : Int).toNat : ℚ)) * 2) = 6 by simp; norm_num]
    norm_num)

/-! ## Serializer round trip -/

theorem usizeToNeBytes_length (byteLen : Nat) (le : Bool) (n : Nat) :
    (usizeToNeBytes byteLen le n).length = byteLen := by
  unfold usizeToNeBytes
  cases le <;> simp

theorem usize_ne_roundtrip (n : Nat) (hn : n < 2 ^ 64) :
    usizeFromNeBytes true (usizeToNeBytes 8 true n) = n := by
  unfold usizeToNeBytes usizeFromNeBytes
  rw [show List.range 8 = [0, 1, 2, 3, 4, 5, 6, 7] from rfl]
  simp only [List.map_cons, List.map_nil, if_true, List.foldr_cons, List.foldr_nil]
  norm_num
  omega

theorem flatten_color_length (ps : List Color32) :
    ((ps.map Color32.toArray).flatten).length = 4 * ps.length := by
  induction ps with
  | nil => simp
  | cons c t ih =>
    simp [Color32.toArray, ih]
    omega

theorem colorOfBytes_toArray (c : Color32) : colorOfBytes c.toArray = c := by
  cases c
  rfl

theorem readBytes_append (pre mid rest : List Nat) :
    readBytes (pre ++ (mid ++ rest)) pre.length mid.length = some mid := by
  unfold readBytes
  rw [if_pos (by simp)]
  rw [List.drop_left, List.take_left]

theorem readPixels_append (ps : List Color32) : ∀ pre : List Nat,
    readPixels (pre ++ (ps.map Color32.toArray).flatten) pre.length ps.length = some ps := by
  induction ps with
  | nil => intro pre; rfl
  | cons c t ih =>
    intro pre
    show readPixels _ pre.length (t.length + 1) = _
    unfold readPixels
    have hbin : pre ++ ((c :: t).map Color32.toArray).flatten
        = pre ++ (c.toArray ++ (t.map Color32.toArray).flatten) := by
      simp
    rw [hbin]
    have hread : readBytes (pre ++ (c.toArray ++ (t.map Color32.toArray).flatten))
        pre.length 4 = some c.toArray := by
      have h4 : c.toArray.length = 4 := by cases c; rfl
      rw [← h4]
      exact readBytes_append pre c.toArray (t.map Color32.toArray).flatten
    rw [hread]
    rw [Option.some_bind]
    have hre : pre ++ (c.toArray ++ (t.map Color32.toArray).flatten)
        = (pre ++ c.toArray) ++ (t.map Color32.toArray).flatten := by
      simp
    have hlen4 : pre.length + 4 = (pre ++ c.toArray).length := by
      cases c
      simp [Color32.toArray]
    rw [hre, hlen4, ih (pre ++ c.toArray)]
    simp [colorOfBytes_toArray]

/-- Claim C3: decoding the encoding of a valid image (pixel count equal to
`width * height`, sizes within `usize` range) returns the original image. -/
theorem img_encode_decode_roundtrip (img : ColorImage)
    (hw : img.width < 2 ^ 64) (hh : img.height < 2 ^ 64)
    (hp : img.pixels.length = img.width * img.height) :
    (img_to_u8 8 true img).bind (u8_to_img 8 true) = some img := by
  obtain ⟨w, h, ps⟩ := img
  have hw' : w < 2 ^ 64 := hw
  have hh' : h < 2 ^ 64 := hh
  have hp' : ps.length = w * h := hp
  unfold img_to_u8
  have hlen : (usizeToNeBytes 8 true w ++ usizeToNeBytes 8 true h ++
      (ps.map Color32.toArray).flatten).length = 2 * 8 + w * h * 4 := by
    rw [List.length_append, List.length_append, usizeToNeBytes_length, usizeToNeBytes_length,
      flatten_color_length, hp']
    omega
  rw [if_pos (le_of_eq hlen)]
  rw [show 2 * 8 + w * h * 4 - (usizeToNeBytes 8 true w ++ usizeToNeBytes 8 true h ++
      (ps.map Color32.toArray).flatten).length = 0 by omega]
  rw [List.replicate_zero, List.append_nil]
  rw [Option.some_bind]
  unfold u8_to_img
  have hassoc : usizeToNeBytes 8 true w ++ usizeToNeBytes 8 true h ++
      (ps.map Color32.toArray).flatten
    = usizeToNeBytes 8 true w ++ (usizeToNeBytes 8 true h ++
        (ps.map Color32.toArray).flatten) := by
    simp
  have hA : readBytes (usizeToNeBytes 8 true w ++ usizeToNeBytes 8 true h ++
      (ps.map Color32.toArray).flatten) 0 8 = some (usizeToNeBytes 8 true w) := by
    rw [hassoc]
    have := readBytes_append [] (usizeToNeBytes 8 true w)
      (usizeToNeBytes 8 true h ++ (ps.map Color32.toArray).flatten)
    rw [List.nil_append, List.length_nil, usizeToNeBytes_length] at this
    exact this
  have hB : readBytes (usizeToNeBytes 8 true w ++ usizeToNeBytes 8 true h ++
      (ps.map Color32.toArray).flatten) 8 8 = some (usizeToNeBytes 8 true h) := by
    rw [hassoc]
    have := readBytes_append (usizeToNeBytes 8 true w) (usizeToNeBytes 8 true h)
      ((ps.map Color32.toArray).flatten)
    rw [usizeToNeBytes_length, usizeToNeBytes_length] at this
    exact this
  rw [hA, Option.some_bind, hB, Option.some_bind]
  rw [usize_ne_roundtrip w hw', usize_ne_roundtrip h hh']
  have hP : readPixels (usizeToNeBytes 8 true w ++ usizeToNeBytes 8 true h ++
      (ps.map Color32.toArray).flatten) (2 * 8) (w * h) = some ps := by
    have := readPixels_append ps (usizeToNeBytes 8 true w ++ usizeToNeBytes 8 true h)
    rw [List.length_append, usizeToNeBytes_length, usizeToNeBytes_length, hp'] at this
    exact this
  dsimp only
  rw [hP]
  rfl

/-- Witness for C3: a concrete 1-by-1 image round-trips. -/
theorem img_encode_decode_roundtrip_witness :
    (1 : Nat) < 2 ^ 64
    ∧ ((⟨1, 1, [⟨1, 2, 3, 4⟩]⟩ : ColorImage).pixels.length = 1 * 1)
    ∧ (img_to_u8 8 true ⟨1, 1, [⟨1, 2, 3, 4⟩]⟩).bind (u8_to_img 8 true)
        = some ⟨1, 1, [⟨1, 2, 3, 4⟩]⟩ :=
  ⟨by norm_num, rfl,
    img_encode_decode_roundtrip ⟨1, 1, [⟨1, 2, 3, 4⟩]⟩ (by norm_num) (by norm_num) rfl⟩

/-- Claim C4 (code bug): `u8_to_img` performs no length validation at all.
On a 16-byte buffer that encodes `width = height = 1` but carries no pixel
bytes, the pixel read indexes past the end of the buffer: the code panics
(`none` in this embedding) instead of returning a `DeserializeError` (no
error-returning path exists in the source). -/
theorem u8_to_img_panics_on_undersized_buffer :
    u8_to_img 8 true (usizeToNeBytes 8 true 1 ++ usizeToNeBytes 8 true 1) = none := by
  decide

/-- Claim C5 (code bug): the size fields written by `img_to_u8` use
`usize::to_ne_bytes`, so the byte layout depends on the build architecture:
the same image encodes differently under little-endian and big-endian byte
order, and under 8-byte and 4-byte `usize`.  The layout is therefore not the
fixed-width little-endian architecture-independent encoding the claim
requires. -/
theorem img_to_u8_layout_architecture_dependent :
    img_to_u8 8 true ⟨1, 0, []⟩ ≠ img_to_u8 8 false ⟨1, 0, []⟩
    ∧ img_to_u8 8 true ⟨1, 0, []⟩ ≠ img_to_u8 4 true ⟨1, 0, []⟩ := by
  constructor <;> decide

/-! ## Cache key -/

theorem hexDigit_mem_lower_hex (k : Nat) (hk : k < 16) :
    hexDigit k ∈ lowerHexChars := by
  interval_cases k <;> decide

theorem toLowerHex_chars_lower_hex (n : Nat) :
    ∀ c ∈ toLowerHex n, c ∈ lowerHexChars := by
  induction n using Nat.strong_induction_on with
  | _ n ih =>
    intro c hc
    rw [toLowerHex] at hc
    by_cases h : n < 16
    · rw [if_pos h] at hc
      rw [List.mem_singleton] at hc
      subst hc
      exact hexDigit_mem_lower_hex n h
    · rw [if_neg h] at hc
      rcases List.mem_append.mp hc with h1 | h1
      · exact ih (n / 16) (by omega) c h1
      · rw [List.mem_singleton] at h1
        subst h1
        exact hexDigit_mem_lower_hex _ (Nat.mod_lt _ (by norm_num))

/-- Claim C8: for every scale (represented by its 32-bit pattern), source
byte sequence, and digest function (the external SHA-256 hasher's `finish`,
abstract here), the cache key is the lowercase hexadecimal rendering of the
digest of the scale's little-endian bytes concatenated with the raw source
bytes. -/
theorem cache_key_hex_of_hash (finish : List Nat → Nat) (scaleBits : Nat)
    (svgBytes : List Nat) :
    cacheKey finish scaleBits svgBytes
        = toLowerHex (finish (scaleNeBytes scaleBits ++ svgBytes))
    ∧ ∀ c ∈ cacheKey finish scaleBits svgBytes,
        c ∈ lowerHexChars := by
  have hkey : cacheKey finish scaleBits svgBytes
      = toLowerHex (finish (scaleNeBytes scaleBits ++ svgBytes)) := by
    unfold cacheKey Sha256.default Sha256.hashSlice
    dsimp only
    rw [List.nil_append]
  refine ⟨hkey, ?_⟩
  rw [hkey]
  exact toLowerHex_chars_lower_hex _

/-- Witness for C8 at a concrete digest function, scale pattern and byte
sequence. -/
theorem cache_key_hex_of_hash_witness :
    cacheKey (fun l => l.sum) 3 [7, 8]
        = toLowerHex ((fun l : List Nat => l.sum) (scaleNeBytes 3 ++ [7, 8]))
    ∧ '1' ∈ lowerHexChars :=
  ⟨(cache_key_hex_of_hash (fun l => l.sum) 3 [7, 8]).1, by decide⟩

/-! ## Integer-cornered queries agree across the two embeddings -/

theorem toQ_intersects_iff (a b : Rect) :
    (Rect.toQ a).intersects (Rect.toQ b) ↔ a.intersects b := by
  unfold Rect.toQ QRect.intersects Rect.intersects
  simp

theorem toQ_containsRect_iff (a b : Rect) :
    (Rect.toQ a).containsRect (Rect.toQ b) ↔ a.containsRect b := by
  unfold Rect.toQ QRect.containsRect QRect.containsPos Rect.containsRect Rect.containsPos
  simp

theorem toQ_intersect (a b : Rect) :
    (Rect.toQ a).intersect (Rect.toQ b) = Rect.toQ (a.intersect b) := by
  unfold Rect.toQ QRect.intersect Rect.intersect
  rw [QRect.mk.injEq]
  refine ⟨?_, ?_, ?_, ?_⟩ <;> (push_cast; rfl)

theorem f32ToUsize_intCast (n : Int) : f32ToUsize (n : ℚ) = n.toNat := by
  unfold f32ToUsize
  rw [Int.floor_intCast]

theorem f32ToUsize_toQ_width (c : Rect) : f32ToUsize (Rect.toQ c).width = c.width.toNat := by
  unfold f32ToUsize Rect.toQ QRect.width Rect.width
  dsimp only
  rw [← Int.cast_sub, Int.floor_intCast]

theorem f32ToUsize_toQ_height (c : Rect) :
    f32ToUsize (Rect.toQ c).height = c.height.toNat := by
  unfold f32ToUsize Rect.toQ QRect.height Rect.height
  dsimp only
  rw [← Int.cast_sub, Int.floor_intCast]

theorem f32ToUsize_toQ_minX (c : Rect) : f32ToUsize (Rect.toQ c).minX = c.minX.toNat := by
  unfold Rect.toQ
  dsimp only
  rw [f32ToUsize_intCast]

theorem f32ToUsize_toQ_minY (c : Rect) : f32ToUsize (Rect.toQ c).minY = c.minY.toNat := by
  unfold Rect.toQ
  dsimp only
  rw [f32ToUsize_intCast]

theorem contains_pixelQ_toQ (px : Pixels2D) (r : Rect) :
    px.contains_pixelQ (Rect.toQ r) = px.contains_pixel r := by
  unfold Pixels2D.contains_pixelQ Pixels2D.contains_pixel
  rw [toQ_intersect]
  simp only [f32ToUsize_toQ_width, f32ToUsize_toQ_height, f32ToUsize_toQ_minX,
    f32ToUsize_toQ_minY]

theorem contains_pixel_in_layerQ_toQ (b : BitImg) (t : Rect) (tree : LayeredRect) :
    b.contains_pixel_in_layerQ (Rect.toQ t) tree = b.contains_pixel_in_layer t tree := by
  induction tree with
  | Leaf rect pc =>
    simp only [BitImg.contains_pixel_in_layerQ, BitImg.contains_pixel_in_layer,
      toQ_intersects_iff, toQ_containsRect_iff, contains_pixelQ_toQ]
  | Node rect c0 c1 pc ih0 ih1 =>
    simp only [BitImg.contains_pixel_in_layerQ, BitImg.contains_pixel_in_layer,
      toQ_intersects_iff, toQ_containsRect_iff, ih0, ih1]

theorem bitimg_contains_pixelQ_toQ (b : BitImg) (r : Rect) :
    b.contains_pixelQ (Rect.toQ r) = b.contains_pixel r := by
  unfold BitImg.contains_pixelQ BitImg.contains_pixel
  rw [toQ_intersect, contains_pixel_in_layerQ_toQ]

/-- Claim C1 (amended): for every pixel mask built over origin-anchored
image bounds and every query rectangle with integer corners, the indexed
query `BitImg::contains_pixel` agrees with the brute-force mask query
`Pixels2D::contains_pixel` applied to the intersection of the query
rectangle with the mask's bounds — stated in the `f32`-general query
embedding, into which `Rect.toQ` injects the integer-cornered rectangles.
At fractional query rectangles the two queries can disagree (see the
counterexample). -/
theorem bitimg_query_equiv_on_integer_rects (bits : Finset Nat) (w h : Nat) (r : Rect) :
    (BitImg.new ⟨bits, ⟨0, 0, (w : Int), (h : Int)⟩⟩).contains_pixelQ (Rect.toQ r)
      = (⟨bits, ⟨0, 0, (w : Int), (h : Int)⟩⟩ : Pixels2D).contains_pixelQ
          ((Rect.toQ r).intersect (Rect.toQ ⟨0, 0, (w : Int), (h : Int)⟩)) := by
  rw [bitimg_contains_pixelQ_toQ, toQ_intersect, contains_pixelQ_toQ]
  exact bitimg_query_equiv_brute_force bits w h r

/-- Claim C1 counterexample: the claimed equivalence fails at a fractional
query rectangle.  On the 4-by-3 mask whose only opaque pixel is (3,2)
(bit 11), the index is a root over two leaves, (0,0)-(2,3) with count 0 and
(2,0)-(4,3) with count 1.  For the query rectangle (3/2, 0)-(17/4, 13/4)
(all coordinates exact in `f32`), `BitImg::contains_pixel` clips to
(3/2, 0)-(4, 3) and answers `true` because the right leaf is fully
contained with a non-zero count, while `Pixels2D::contains_pixel` on that
same intersection truncates its loop bounds (`start_x = 1`, `w = 2`),
scans only columns 1 and 2, and answers `false`. -/
theorem bitimg_query_fractional_counterexample :
    (BitImg.new ⟨{11}, ⟨0, 0, 4, 3⟩⟩).contains_pixelQ ⟨3/2, 0, 17/4, 13/4⟩ = true
    ∧ (⟨{11}, ⟨0, 0, 4, 3⟩⟩ : Pixels2D).contains_pixelQ
        (QRect.intersect ⟨3/2, 0, 17/4, 13/4⟩ (Rect.toQ ⟨0, 0, 4, 3⟩)) = false := by
  have hleft : LayeredRect.new ⟨0, 0, 2, 3⟩ (⟨{11}, ⟨0, 0, 4, 3⟩⟩ : Pixels2D)
      = .Leaf ⟨0, 0, 2, 3⟩ 0 := by
    rw [LayeredRect.new, if_neg (by decide), if_neg (by decide)]
    decide
  have hright : LayeredRect.new ⟨2, 0, 4, 3⟩ (⟨{11}, ⟨0, 0, 4, 3⟩⟩ : Pixels2D)
      = .Leaf ⟨2, 0, 4, 3⟩ 1 := by
    rw [LayeredRect.new, if_neg (by decide), if_neg (by decide)]
    decide
  have htree : LayeredRect.new ⟨0, 0, 4, 3⟩ (⟨{11}, ⟨0, 0, 4, 3⟩⟩ : Pixels2D)
      = .Node ⟨0, 0, 4, 3⟩ (.Leaf ⟨0, 0, 2, 3⟩ 0) (.Leaf ⟨2, 0, 4, 3⟩ 1) 1 := by
    rw [LayeredRect.new, if_pos (by decide)]
    rw [show (split_horizontal ⟨0, 0, 4, 3⟩).1 = (⟨0, 0, 2, 3⟩ : Rect) from by decide,
      show (split_horizontal ⟨0, 0, 4, 3⟩).2 = (⟨2, 0, 4, 3⟩ : Rect) from by decide]
    rw [hleft, hright]
    rfl
  have hcb : QRect.intersect ⟨3/2, 0, 17/4, 13/4⟩ (Rect.toQ ⟨0, 0, 4, 3⟩)
      = (⟨3/2, 0, 4, 3⟩ : QRect) := by
    unfold QRect.intersect Rect.toQ
    dsimp only
    rw [QRect.mk.injEq]
    refine ⟨?_, ?_, ?_, ?_⟩
    · rw [max_eq_left (by push_cast; norm_num)]
    · rw [max_eq_left (by push_cast; norm_num)]
    · rw [min_eq_right (by push_cast; norm_num)]; push_cast; norm_num
    · rw [min_eq_right (by push_cast; norm_num)]; push_cast; norm_num
  constructor
  · unfold BitImg.contains_pixelQ
    dsimp only [BitImg.new]
    rw [hcb, htree]
    simp only [BitImg.contains_pixel_in_layerQ]
    rw [if_neg (by decide : ¬((1 : Nat) = 0))]
    rw [if_neg (not_not_intro (show (Rect.toQ ⟨0, 0, 4, 3⟩).intersects ⟨3/2, 0, 4, 3⟩ by
      unfold Rect.toQ QRect.intersects
      dsimp only
      refine ⟨?_, ?_, ?_, ?_⟩ <;> (push_cast; norm_num)))]
    rw [if_neg (show
        ¬((⟨3/2, 0, 4, 3⟩ : QRect).containsRect (Rect.toQ ⟨0, 0, 4, 3⟩) ∧ (1 : Nat) ≠ 0) by
      intro hcontra
      unfold QRect.containsRect QRect.containsPos Rect.toQ at hcontra
      dsimp only at hcontra
      rcases hcontra with ⟨⟨⟨h1, _⟩, _⟩, _⟩
      push_cast at h1
      norm_num at h1)]
    rw [if_pos trivial]
    rw [Bool.false_or]
    rw [if_neg (by decide : ¬((1 : Nat) = 0))]
    rw [if_neg (not_not_intro (show (Rect.toQ ⟨2, 0, 4, 3⟩).intersects ⟨3/2, 0, 4, 3⟩ by
      unfold Rect.toQ QRect.intersects
      dsimp only
      refine ⟨?_, ?_, ?_, ?_⟩ <;> (push_cast; norm_num)))]
    rw [if_pos (show
        (⟨3/2, 0, 4, 3⟩ : QRect).containsRect (Rect.toQ ⟨2, 0, 4, 3⟩) ∧ (1 : Nat) ≠ 0 by
      refine ⟨?_, by decide⟩
      unfold QRect.containsRect QRect.containsPos Rect.toQ
      dsimp only
      refine ⟨⟨?_, ?_, ?_, ?_⟩, ⟨?_, ?_, ?_, ?_⟩⟩ <;> (push_cast; norm_num))]
  · rw [hcb]
    unfold Pixels2D.contains_pixelQ
    dsimp only
    have hcb2 : QRect.intersect ⟨3/2, 0, 4, 3⟩ (Rect.toQ ⟨0, 0, 4, 3⟩)
        = (⟨3/2, 0, 4, 3⟩ : QRect) := by
      unfold QRect.intersect Rect.toQ
      dsimp only
      rw [QRect.mk.injEq]
      refine ⟨?_, ?_, ?_, ?_⟩
      · rw [max_eq_left (by push_cast; norm_num)]
      · rw [max_eq_left (by push_cast; norm_num)]
      · rw [min_eq_right (by push_cast; norm_num)]; push_cast; norm_num
      · rw [min_eq_right (by push_cast; norm_num)]; push_cast; norm_num
    rw [hcb2]
    have e1 : f32ToUsize (QRect.height ⟨3/2, 0, 4, 3⟩) = 3 := by
      unfold f32ToUsize QRect.height
      dsimp only
      rw [show ⌊(3 : ℚ) - 0⌋ = 3 by rw [Int.floor_eq_iff]; norm_num]
      rfl
    have e2 : f32ToUsize (QRect.width ⟨3/2, 0, 4, 3⟩) = 2 := by
      unfold f32ToUsize QRect.width
      dsimp only
      rw [show ⌊(4 : ℚ) - 3 / 2⌋ = 2 by rw [Int.floor_eq_iff]; norm_num]
      rfl
    have e3 : f32ToUsize (QRect.minX ⟨3/2, 0, 4, 3⟩) = 1 := by
      unfold f32ToUsize
      dsimp only
      rw [show ⌊(3 : ℚ) / 2⌋ = 1 by rw [Int.floor_eq_iff]; norm_num]
      rfl
    have e4 : f32ToUsize (QRect.minY ⟨3/2, 0, 4, 3⟩) = 0 := by
      unfold f32ToUsize
      dsimp only
      rw [show ⌊(0 : ℚ)⌋ = 0 by rw [Int.floor_eq_iff]; norm_num]
      rfl
    rw [e1, e2]
    simp only [e3, e4]
    decide

end ClickableImg
